import Mathlib

/-!
Shallow embedding of the aphrc-snapshot pipeline
(`src/extract.py`, `src/fetch_aphrc.py`, `src/export_to_remote.py`).

JSON values are modelled by `JValue`; Python dictionary access, iteration,
truthiness and string `replace` are modelled explicitly; code that can raise
a Python exception is embedded in `Except Unit`.
-/

set_option maxHeartbeats 1000000

namespace Aphrc

/-- JSON-like values as handled by the scripts (numbers as integers;
Python `True`/`False`/`None` are `bool`/`null`). -/
inductive JValue where
  | null
  | bool (b : Bool)
  | num (n : Int)
  | str (s : String)
  | arr (xs : List JValue)
  | obj (fields : List (String × JValue))

/-- First binding of a key in an object's field list (Python dict lookup;
dict keys are unique, first match is the binding). -/
def lookupField (fields : List (String × JValue)) (k : String) : Option JValue :=
  match fields with
  | [] => none
  | (k', v) :: rest => if k' = k then some v else lookupField rest k

/-- Python `d.get(k, default)` on a dict's field list: total. -/
def pyGet (fields : List (String × JValue)) (k : String) (d : JValue) : JValue :=
  match lookupField fields k with
  | some v => v
  | none => d

/-- Python `v.get(k, default)` where `v` is an arbitrary value:
raises `AttributeError` when `v` is not a dict. -/
def dictGetE (v : JValue) (k : String) (d : JValue) : Except Unit JValue :=
  match v with
  | .obj fs => .ok (pyGet fs k d)
  | _ => .error ()

/-- Python iteration `for x in v`: lists yield elements, dicts yield their
keys, strings yield their one-character substrings; other values raise
`TypeError`. -/
def iterElems (v : JValue) : Except Unit (List JValue) :=
  match v with
  | .arr xs => .ok xs
  | .obj fs => .ok (fs.map (fun p => .str p.1))
  | .str s => .ok (s.data.map (fun c => .str (String.singleton c)))
  | _ => .error ()

/-- Python subscript `v[k]`: raises `KeyError` when the key is absent and
`TypeError` when `v` is not a dict. -/
def getKeyE (v : JValue) (k : String) : Except Unit JValue :=
  match v with
  | .obj fs =>
    match lookupField fs k with
    | some x => .ok x
    | none => .error ()
  | _ => .error ()

/-- A value required to be a string (Python `str.join` and `str.lower`
raise on anything else). -/
def asStrE (v : JValue) : Except Unit String :=
  match v with
  | .str s => .ok s
  | _ => .error ()

/-- Python truthiness of a JSON value. -/
def truthy (v : JValue) : Bool :=
  match v with
  | .null => false
  | .bool b => b
  | .num n => n != 0
  | .str s => s != ""
  | .arr xs => !xs.isEmpty
  | .obj fs => !fs.isEmpty

@[simp] theorem exceptBind_ok {α β : Type} (a : α) (f : α → Except Unit β) :
    (Except.ok a >>= f) = f a := rfl

@[simp] theorem exceptBind_err {α β : Type} (f : α → Except Unit β) :
    ((Except.error () : Except Unit α) >>= f) = .error () := rfl

/-- A Python `for` loop that appends `f x` for each element and propagates
the first exception (the shape of both normalizers' main loops). -/
def mapME {α β : Type} (f : α → Except Unit β) : List α → Except Unit (List β)
  | [] => .ok []
  | x :: xs => do
    let y ← f x
    let ys ← mapME f xs
    .ok (y :: ys)

/-- A Python `for` loop threading an accumulator, propagating the first
exception. -/
def foldlME {α β : Type} (f : β → α → Except Unit β) :
    β → List α → Except Unit β
  | b, [] => .ok b
  | b, x :: xs => do
    let b' ← f b x
    foldlME f b' xs

/-! ### Python `str.replace(pat, "")` (all occurrences, left to right) -/

/-- Worker for deleting every occurrence of the non-empty pattern
`p0 :: ps`, scanning left to right: `skip` counts pattern characters still
to be consumed after a match. -/
def replaceAllAux (p0 : Char) (ps : List Char) (skip : Nat) :
    List Char → List Char
  | [] => []
  | c :: rest =>
    match skip with
    | n + 1 => replaceAllAux p0 ps n rest
    | 0 =>
      if c = p0 && ps.isPrefixOf rest then
        replaceAllAux p0 ps ps.length rest
      else
        c :: replaceAllAux p0 ps 0 rest

/-- Delete every occurrence of the non-empty pattern `p0 :: ps` from `s`,
scanning left to right (the semantics of Python `s.replace(pat, "")`). -/
def replaceAll (p0 : Char) (ps : List Char) (s : List Char) : List Char :=
  replaceAllAux p0 ps 0 s

/-- Does `s` contain the pattern `p0 :: ps` as a substring? -/
def containsPat (p0 : Char) (ps : List Char) : List Char → Bool
  | [] => false
  | c :: rest => (c = p0 && ps.isPrefixOf rest) || containsPat p0 ps rest

/-- Python `s.replace(pat, "")` on strings (identity when `pat` is empty,
which never happens in this code base). -/
def pyReplaceDel (pat : String) (s : String) : String :=
  match pat.data with
  | [] => s
  | p0 :: ps => String.mk (replaceAll p0 ps s.data)

/-! ### Abstract Reconstructor (`reconstruct_abstract`), typed input

`src/extract.py` lines 239-253 and `src/fetch_aphrc.py` lines 263-279:
the inverted index is a mapping word -> list of positions, modelled as an
association list (Python dict iteration order = insertion order). -/

/-- One Python assignment `while len(words) <= pos: words.append("");
words[pos] = word`. -/
def writeSlot (words : List String) (pos : Nat) (w : String) : List String :=
  (words ++ List.replicate (pos + 1 - words.length) "").set pos w

/-- The double loop `for word, positions ...: for pos in positions: ...`
flattened to its sequence of writes. -/
def fillWords (pairs : List (String × Nat)) (words : List String) : List String :=
  match pairs with
  | [] => words
  | (w, p) :: rest => fillWords rest (writeSlot words p w)

/-- The (word, position) write sequence of an inverted index. -/
def pairsOf (idx : List (String × List Nat)) : List (String × Nat) :=
  idx.flatMap (fun wp => wp.2.map (fun p => (wp.1, p)))

/-- The function `reconstruct_abstract` from the source: empty mapping short-circuits to
`""`; otherwise fill a growing slot list and join with single spaces. -/
def reconstruct_abstract (idx : List (String × List Nat)) : String :=
  if idx.isEmpty then ""
  else String.intercalate " " (fillWords (pairsOf idx) [])

/-! The spec's description of the same algorithm (for claim C1): preallocate
a slot list of length one greater than the maximum position, write every
(word, position) pair, join with single spaces. -/

/-- Maximum position over a write sequence (0 when empty). -/
def maxPos (pairs : List (String × Nat)) : Nat :=
  pairs.foldl (fun m wp => max m wp.2) 0

/-- Number of slots the spec prescribes: one more than the maximum
position, 0 when there are no (word, position) pairs at all. -/
def slotCount (pairs : List (String × Nat)) : Nat :=
  if pairs.isEmpty then 0 else maxPos pairs + 1

/-- Write each pair into a preallocated slot list (the spec's algorithm). -/
def specFill (pairs : List (String × Nat)) (slots : List String) : List String :=
  pairs.foldl (fun s wp => s.set wp.2 wp.1) slots

/-- Abstract reconstruction exactly as the spec words it. -/
def reconstructSpec (idx : List (String × List Nat)) : String :=
  String.intercalate " "
    (specFill (pairsOf idx) (List.replicate (slotCount (pairsOf idx)) ""))

/-! ### C1 proof machinery -/

/-- Pad a slot list with empty strings up to length `n`. -/
def padTo (l : List String) (n : Nat) : List String :=
  l ++ List.replicate (n - l.length) ""

theorem writeSlot_length (C : List String) (p : Nat) (w : String) :
    (writeSlot C p w).length = max C.length (p + 1) := by
  simp only [writeSlot, List.length_set, List.length_append, List.length_replicate]
  omega

theorem set_replicate_split {α : Type} (b a : α) :
    ∀ (j m : Nat), j < m →
      (List.replicate m a).set j b =
        List.replicate j a ++ b :: List.replicate (m - j - 1) a := by
  intro j
  induction j with
  | zero =>
    intro m hm
    cases m with
    | zero => omega
    | succ k => simp [List.replicate_succ]
  | succ j ih =>
    intro m hm
    cases m with
    | zero => omega
    | succ k =>
      simp only [List.replicate_succ, List.set_cons_succ, List.cons_append]
      rw [ih k (by omega)]
      rw [show k + 1 - (j + 1) - 1 = k - j - 1 from by omega]

theorem padTo_writeSlot (C : List String) (p n : Nat) (w : String)
    (hp : p < n) (hC : C.length ≤ n) :
    padTo (writeSlot C p w) n = (padTo C n).set p w := by
  rcases Nat.lt_or_ge p C.length with hlt | hge
  · have h1 : writeSlot C p w = C.set p w := by
      simp only [writeSlot]
      rw [show p + 1 - C.length = 0 from by omega]
      simp
    rw [h1, padTo, padTo, List.set_append, if_pos (by simpa using hlt)]
    simp [List.length_set]
  · have hk : p + 1 - C.length = (p - C.length) + 1 := by omega
    have h1 : writeSlot C p w =
        C ++ (List.replicate (p - C.length) "" ++ w :: []) := by
      simp only [writeSlot, hk]
      rw [List.set_append, if_neg (by omega)]
      rw [set_replicate_split w "" (p - C.length) (p - C.length + 1) (by omega)]
      rw [show p - C.length + 1 - (p - C.length) - 1 = 0 from by omega]
      rfl
    have hlen : (writeSlot C p w).length = p + 1 := by
      rw [writeSlot_length]; omega
    rw [padTo, hlen, h1, padTo, List.set_append, if_neg (by omega)]
    rw [set_replicate_split w "" (p - C.length) (n - C.length) (by omega)]
    rw [show n - C.length - (p - C.length) - 1 = n - (p + 1) from by omega]
    simp [List.append_assoc]

theorem padTo_fillWords :
    ∀ (pairs : List (String × Nat)) (C : List String) (n : Nat),
      (∀ wp ∈ pairs, wp.2 < n) → C.length ≤ n →
      padTo (fillWords pairs C) n = specFill pairs (padTo C n) := by
  intro pairs
  induction pairs with
  | nil => intro C n _ _; rfl
  | cons wp rest ih =>
    intro C n hpos hC
    obtain ⟨w, p⟩ := wp
    have hp : p < n := hpos (w, p) (by simp)
    show padTo (fillWords rest (writeSlot C p w)) n =
      specFill rest ((padTo C n).set p w)
    rw [ih (writeSlot C p w) n (fun wp h => hpos wp (List.mem_cons_of_mem _ h))
      (by rw [writeSlot_length]; omega)]
    rw [padTo_writeSlot C p n w hp hC]

theorem fillWords_length :
    ∀ (pairs : List (String × Nat)) (C : List String),
      (fillWords pairs C).length =
        pairs.foldl (fun m wp => max m (wp.2 + 1)) C.length := by
  intro pairs
  induction pairs with
  | nil => intro C; rfl
  | cons wp rest ih =>
    intro C
    obtain ⟨w, p⟩ := wp
    show (fillWords rest (writeSlot C p w)).length = _
    rw [ih, List.foldl_cons, writeSlot_length]

theorem foldl_max_succ (pairs : List (String × Nat)) :
    ∀ q : Nat,
      pairs.foldl (fun m wp => max m (wp.2 + 1)) (q + 1) =
        pairs.foldl (fun m wp => max m wp.2) q + 1 := by
  induction pairs with
  | nil => intro q; rfl
  | cons wp rest ih =>
    intro q
    simp only [List.foldl_cons]
    rw [show max (q + 1) (wp.2 + 1) = max q wp.2 + 1 from Nat.succ_max_succ q wp.2]
    exact ih (max q wp.2)

theorem fillWords_nil_length (pairs : List (String × Nat)) (hne : pairs ≠ []) :
    (fillWords pairs []).length = maxPos pairs + 1 := by
  cases pairs with
  | nil => exact absurd rfl hne
  | cons wp rest =>
    rw [fillWords_length]
    simp only [List.foldl_cons, List.length_nil, maxPos, Nat.zero_max]
    exact foldl_max_succ rest wp.2

theorem le_foldl_max (pairs : List (String × Nat)) :
    ∀ a : Nat, a ≤ pairs.foldl (fun m wp => max m wp.2) a := by
  induction pairs with
  | nil => intro a; exact Nat.le_refl a
  | cons wp rest ih =>
    intro a
    exact Nat.le_trans (Nat.le_max_left a wp.2) (ih (max a wp.2))

theorem mem_le_foldl_max (pairs : List (String × Nat)) :
    ∀ (a : Nat), ∀ wp ∈ pairs, wp.2 ≤ pairs.foldl (fun m wp => max m wp.2) a := by
  induction pairs with
  | nil => intro a wp h; cases h
  | cons x rest ih =>
    intro a wp h
    rw [List.foldl_cons]
    rcases List.mem_cons.mp h with h | h
    · subst h
      exact Nat.le_trans (Nat.le_max_right a wp.2) (le_foldl_max rest _)
    · exact ih (max a x.2) wp h

theorem mem_lt_slotCount (pairs : List (String × Nat)) :
    ∀ wp ∈ pairs, wp.2 < slotCount pairs := by
  intro wp h
  have hne : pairs ≠ [] := by
    intro e; subst e; cases h
  have h1 : wp.2 ≤ maxPos pairs := mem_le_foldl_max pairs 0 wp h
  rw [slotCount, if_neg (by simpa [List.isEmpty_iff] using hne)]
  omega

theorem reconstruct_eq_spec (idx : List (String × List Nat)) :
    reconstruct_abstract idx = reconstructSpec idx := by
  cases idx with
  | nil => rfl
  | cons wp rest =>
    rw [reconstruct_abstract, if_neg (by simp)]
    rw [reconstructSpec]
    congr 1
    set pairs := pairsOf (wp :: rest) with hpairs
    by_cases hp : pairs = []
    · rw [hp]
      rfl
    · have h1 := padTo_fillWords pairs [] (slotCount pairs)
        (mem_lt_slotCount pairs) (by simp)
      have h2 : (fillWords pairs []).length = slotCount pairs := by
        rw [fillWords_nil_length pairs hp, slotCount,
          if_neg (by simpa [List.isEmpty_iff] using hp)]
      rw [padTo, h2, Nat.sub_self, List.replicate_zero, List.append_nil] at h1
      rw [h1]
      congr 1

/-- C1: for every inverted index mapping words to positions,
`reconstruct_abstract` returns exactly the string the spec describes — a
slot sequence of length one greater than the maximum position, every slot
initialized to `""`, each word written at each of its positions, all slots
joined with single spaces so gaps appear as consecutive spaces; in
particular the empty mapping gives `""`, `{"a": [0]}` gives `"a"`, and
`{"a": [0], "b": [2]}` gives `"a  b"`. -/
theorem C1_reconstruct_abstract_correct :
    (∀ idx, reconstruct_abstract idx = reconstructSpec idx) ∧
    reconstruct_abstract [] = "" ∧
    reconstruct_abstract [("a", [0])] = "a" ∧
    reconstruct_abstract [("a", [0]), ("b", [2])] = "a  b" :=
  ⟨reconstruct_eq_spec, rfl, rfl, rfl⟩

/-! ### Record Normalizer (`extract_work_data` in `src/extract.py` and
`process_works` in `src/fetch_aphrc.py`) -/

/-- One normalized row. Fields that the Python code passes through untouched
keep their raw JSON value; computed text fields are `String`. -/
structure Row where
  id : JValue
  title : JValue
  authors : String
  publication_year : JValue
  publication_date : JValue
  doi : JValue
  open_access : JValue
  journal_name : JValue
  volume : JValue
  issue : JValue
  cited_by_count : JValue
  type : JValue
  abstract : String

/-- The expression `author["author"]["display_name"]` for one element of the authorships
iterable; raises on any missing key or non-dict, and the surrounding
`", ".join` raises on a non-string name. -/
def authorName (a : JValue) : Except Unit String := do
  let au ← getKeyE a "author"
  let dn ← getKeyE au "display_name"
  asStrE dn

/-- The comprehension `", ".join([author["author"]["display_name"] for author in v])`. -/
def getAuthorsE (v : JValue) : Except Unit String := do
  let elems ← iterElems v
  let names ← mapME authorName elems
  .ok (String.intercalate ", " names)

/-- The calls `host_venue.get("display_name", "") / .get("volume", "") /
.get("issue", "")`: raises when the host-venue value is not a dict. -/
def hostInfoE (hv : JValue) : Except Unit (JValue × JValue × JValue) :=
  match hv with
  | .obj fs =>
    .ok (pyGet fs "display_name" (.str ""), pyGet fs "volume" (.str ""),
      pyGet fs "issue" (.str ""))
  | _ => .error ()

/-- The call `work.get("open_access", {}).get("is_oa", False)`: raises when the
open-access value is present but not a dict. -/
def openAccessE (oa : JValue) : Except Unit JValue :=
  match oa with
  | .obj fs => .ok (pyGet fs "is_oa" (.bool false))
  | _ => .error ()

/-- The call `work.get("id", "").replace("https://openalex.org/", "")` in
`extract.py`: `.replace` raises on a non-string id. -/
def idE (v : JValue) : Except Unit JValue :=
  match v with
  | .str s => .ok (.str (pyReplaceDel "https://openalex.org/" s))
  | _ => .error ()

/-- One position write of the raw-value reconstructor. Int (and bool, which
Python treats as int) positions index the growing slot list; a negative
index assigns from the end or raises `IndexError`; any other type raises. -/
def writePosE (ws : List String) (w : String) (p : JValue) :
    Except Unit (List String) :=
  match p with
  | .num n =>
    if n < 0 then
      if (-n).toNat ≤ ws.length then .ok (ws.set (ws.length - (-n).toNat) w)
      else .error ()
    else .ok (writeSlot ws n.toNat w)
  | .bool b => .ok (writeSlot ws (if b then 1 else 0) w)
  | _ => .error ()

/-- The function `reconstruct_abstract` applied to the raw JSON value (as called inside
the normalizer's `try`): falsy input returns `""`, `.items()` on a non-dict
raises, malformed positions raise. -/
def reconstructJE (v : JValue) : Except Unit String :=
  if !truthy v then .ok ""
  else
    match v with
    | .obj fs => do
      let words ← foldlME (fun ws wp => do
        let ps ← iterElems wp.2
        foldlME (fun ws p => writePosE ws wp.1 p) ws ps) [] fs
      .ok (String.intercalate " " words)
    | _ => .error ()

/-- The abstract handling in both normalizers:
`if abstract: try reconstruct except: ""` — it can never raise. -/
def abstractField (fields : List (String × JValue)) : String :=
  let av := pyGet fields "abstract_inverted_index" (.obj [])
  if truthy av then
    match reconstructJE av with
    | .ok s => s
    | .error _ => ""
  else ""

/-- The per-work body of `extract_work_data` (`src/extract.py`
lines 197-235): builds the row or raises. -/
def extract_work_one (work : JValue) : Except Unit Row :=
  match work with
  | .obj fields => do
    let authors ← getAuthorsE (pyGet fields "authorships" (.arr []))
    let hv ← hostInfoE (pyGet fields "host_venue" (.obj []))
    let idv ← idE (pyGet fields "id" (.str ""))
    let oa ← openAccessE (pyGet fields "open_access" (.obj []))
    .ok { id := idv
          title := pyGet fields "title" (.str "")
          authors := authors
          publication_year := pyGet fields "publication_year" .null
          publication_date := pyGet fields "publication_date" .null
          doi := pyGet fields "doi" (.str "")
          open_access := oa
          journal_name := hv.1
          volume := hv.2.1
          issue := hv.2.2
          cited_by_count := pyGet fields "cited_by_count" (.num 0)
          type := pyGet fields "type" (.str "")
          abstract := abstractField fields }
  | _ => .error ()

/-- The loop of `extract_work_data`: one row appended per work, in order; the first
exception aborts the whole call. -/
def extract_work_data (works : List JValue) : Except Unit (List Row) :=
  mapME extract_work_one works

/-- One institution of the verification printout:
`inst.get("display_name", "")`, whose value the later `join`/`lower`
require to be a string. -/
def verifyInstName (inst : JValue) : Except Unit String := do
  let dn ← dictGetE inst "display_name" (.str "")
  asStrE dn

/-- One authorship of the verification printout:
`for inst in authorship.get("institutions", [])` collecting display
names. -/
def verifyAuthorship (a : JValue) : Except Unit (List String) := do
  let insts ← dictGetE a "institutions" (.arr [])
  let ielems ← iterElems insts
  mapME verifyInstName ielems

/-- The verification printout that `process_works` runs for the first ten
works (`fetch_aphrc.py` lines 197-220). Modelled because it can raise:
`.get` on a non-dict authorship or institution, iteration over a
non-iterable institutions value, and `join`/`lower` on a non-string
display name. -/
def checkVerify (work : JValue) : Except Unit Unit :=
  match work with
  | .obj fields =>
    iterElems (pyGet fields "authorships" (.arr [])) >>= fun auths =>
    mapME verifyAuthorship auths >>= fun _ =>
    .ok ()
  | _ => .error ()

/-- The per-work row of `process_works` (`fetch_aphrc.py` lines 222-259):
identical to `extract_work_one` except the id is passed through with no
prefix stripping (and hence never raises). -/
def process_one (work : JValue) : Except Unit Row :=
  match work with
  | .obj fields => do
    let authors ← getAuthorsE (pyGet fields "authorships" (.arr []))
    let hv ← hostInfoE (pyGet fields "host_venue" (.obj []))
    let oa ← openAccessE (pyGet fields "open_access" (.obj []))
    .ok { id := pyGet fields "id" (.str "")
          title := pyGet fields "title" (.str "")
          authors := authors
          publication_year := pyGet fields "publication_year" .null
          publication_date := pyGet fields "publication_date" .null
          doi := pyGet fields "doi" (.str "")
          open_access := oa
          journal_name := hv.1
          volume := hv.2.1
          issue := hv.2.2
          cited_by_count := pyGet fields "cited_by_count" (.num 0)
          type := pyGet fields "type" (.str "")
          abstract := abstractField fields }
  | _ => .error ()

/-- The enumerated loop of `process_works`: verification printing for
indices below ten, then one row per work. -/
def process_works_go (i : Nat) (works : List JValue) : Except Unit (List Row) :=
  match works with
  | [] => .ok []
  | w :: rest =>
    (if i < 10 then checkVerify w else .ok ()) >>= fun _ =>
    process_one w >>= fun r =>
    process_works_go (i + 1) rest >>= fun rs =>
    .ok (r :: rs)

/-- The function `process_works` (`fetch_aphrc.py` lines 188-261). -/
def process_works (works : List JValue) : Except Unit (List Row) :=
  process_works_go 0 works

/-! ### C2: normalizer robustness -/

/-- Well-formedness of one authorship entry: an object whose author is an
object carrying a string display name. -/
def wfAuthorship (a : JValue) : Bool :=
  match getKeyE a "author" with
  | .ok au =>
    match getKeyE au "display_name" with
    | .ok (.str _) => true
    | _ => false
  | _ => false

/-- The authorships field, if present, is a list of well-formed entries. -/
def wfAuthorshipsField (fields : List (String × JValue)) : Bool :=
  match lookupField fields "authorships" with
  | none => true
  | some (.arr xs) => xs.all wfAuthorship
  | some _ => false

/-- The named field, if present, is an object. -/
def wfOptObjField (fields : List (String × JValue)) (k : String) : Bool :=
  match lookupField fields k with
  | none => true
  | some (.obj _) => true
  | some _ => false

/-- The named field, if present, is a string. -/
def wfOptStrField (fields : List (String × JValue)) (k : String) : Bool :=
  match lookupField fields k with
  | none => true
  | some (.str _) => true
  | some _ => false

/-- Sufficient well-formedness for the normalizer not to raise. -/
def wfWork (fields : List (String × JValue)) : Bool :=
  wfOptStrField fields "id" && wfAuthorshipsField fields &&
    wfOptObjField fields "open_access" && wfOptObjField fields "host_venue"

theorem authorName_ok (a : JValue) (h : wfAuthorship a = true) :
    ∃ s, authorName a = .ok s := by
  unfold wfAuthorship at h
  unfold authorName
  cases h1 : getKeyE a "author" with
  | error e => simp [h1] at h
  | ok au =>
    simp only [h1, exceptBind_ok] at h ⊢
    cases h2 : getKeyE au "display_name" with
    | error e => simp [h2] at h
    | ok dn =>
      simp only [h2, exceptBind_ok] at h ⊢
      cases dn <;> simp_all [asStrE]

theorem mapME_authorName_ok (xs : List JValue)
    (h : xs.all wfAuthorship = true) :
    ∃ names, mapME authorName xs = .ok names := by
  induction xs with
  | nil => exact ⟨[], rfl⟩
  | cons x rest ih =>
    rw [List.all_cons, Bool.and_eq_true] at h
    obtain ⟨s, hs⟩ := authorName_ok x h.1
    obtain ⟨ns, hns⟩ := ih h.2
    exact ⟨s :: ns, by simp [mapME, hs, hns]⟩

theorem getAuthorsE_ok (fields : List (String × JValue))
    (h : wfAuthorshipsField fields = true) :
    ∃ s, getAuthorsE (pyGet fields "authorships" (.arr [])) = .ok s ∧
      (lookupField fields "authorships" = none → s = "") := by
  unfold wfAuthorshipsField at h
  unfold pyGet
  cases h1 : lookupField fields "authorships" with
  | none =>
    exact ⟨String.intercalate ", " [],
      by simp [getAuthorsE, iterElems, mapME], fun _ => rfl⟩
  | some v =>
    simp only [h1] at h ⊢
    cases v with
    | arr xs =>
      obtain ⟨names, hnames⟩ := mapME_authorName_ok xs h
      exact ⟨String.intercalate ", " names,
        by simp [getAuthorsE, iterElems, hnames], by simp⟩
    | null => simp at h
    | bool b => simp at h
    | num n => simp at h
    | str s => simp at h
    | obj fs => simp at h

theorem hostInfoE_ok (fields : List (String × JValue))
    (h : wfOptObjField fields "host_venue" = true) :
    ∃ jn vol iss, hostInfoE (pyGet fields "host_venue" (.obj [])) =
        .ok (jn, vol, iss) ∧
      (lookupField fields "host_venue" = none →
        jn = .str "" ∧ vol = .str "" ∧ iss = .str "") := by
  unfold wfOptObjField at h
  unfold pyGet
  cases h1 : lookupField fields "host_venue" with
  | none =>
    exact ⟨.str "", .str "", .str "", rfl, fun _ => ⟨rfl, rfl, rfl⟩⟩
  | some v =>
    simp only [h1] at h ⊢
    cases v with
    | obj fs => exact ⟨_, _, _, rfl, by simp⟩
    | null => simp at h
    | bool b => simp at h
    | num n => simp at h
    | str s => simp at h
    | arr xs => simp at h

theorem openAccessE_ok (fields : List (String × JValue))
    (h : wfOptObjField fields "open_access" = true) :
    ∃ oa, openAccessE (pyGet fields "open_access" (.obj [])) = .ok oa ∧
      (lookupField fields "open_access" = none → oa = .bool false) := by
  unfold wfOptObjField at h
  unfold pyGet
  cases h1 : lookupField fields "open_access" with
  | none => exact ⟨.bool false, rfl, fun _ => rfl⟩
  | some v =>
    simp only [h1] at h ⊢
    cases v with
    | obj fs => exact ⟨_, rfl, by simp⟩
    | null => simp at h
    | bool b => simp at h
    | num n => simp at h
    | str s => simp at h
    | arr xs => simp at h

theorem idE_ok (fields : List (String × JValue))
    (h : wfOptStrField fields "id" = true) :
    ∃ idv, idE (pyGet fields "id" (.str "")) = .ok idv ∧
      (lookupField fields "id" = none → idv = .str "") := by
  unfold wfOptStrField at h
  unfold pyGet
  cases h1 : lookupField fields "id" with
  | none => exact ⟨.str "", rfl, fun _ => rfl⟩
  | some v =>
    simp only [h1] at h ⊢
    cases v with
    | str s => exact ⟨_, rfl, by simp⟩
    | null => simp at h
    | bool b => simp at h
    | num n => simp at h
    | obj fs => simp at h
    | arr xs => simp at h

theorem pyGet_none (fields : List (String × JValue)) (k : String) (d : JValue)
    (h : lookupField fields k = none) : pyGet fields k d = d := by
  simp [pyGet, h]

theorem abstractField_none (fields : List (String × JValue))
    (h : lookupField fields "abstract_inverted_index" = none) :
    abstractField fields = "" := by
  simp [abstractField, pyGet, h, truthy]

/-- C2 counterexample: the claim says the Record Normalizer returns a row
without raising for every raw Work, including one whose authorship entry
lacks an author display name or whose open_access is not an object; on
exactly those inputs both normalizers raise (modelled as `.error ()`). -/
theorem C2_normalizer_raises_counterexample :
    extract_work_one (.obj [("authorships", .arr [.obj []])]) = .error () ∧
    process_one (.obj [("authorships", .arr [.obj []])]) = .error () ∧
    extract_work_one (.obj [("open_access", .null)]) = .error () :=
  ⟨rfl, rfl, rfl⟩

/-- Under `wfWork`, `extract_work_data`'s per-work body returns a row
without raising and maps each absent field to its type-appropriate
default: cited_by_count 0, open_access false, string fields empty, year
and date null. -/
theorem extract_work_one_wf_ok (fields : List (String × JValue))
    (h : wfWork fields = true) :
    ∃ r, extract_work_one (.obj fields) = .ok r ∧
      (lookupField fields "id" = none → r.id = .str "") ∧
      (lookupField fields "title" = none → r.title = .str "") ∧
      (lookupField fields "authorships" = none → r.authors = "") ∧
      (lookupField fields "publication_year" = none →
        r.publication_year = .null) ∧
      (lookupField fields "publication_date" = none →
        r.publication_date = .null) ∧
      (lookupField fields "doi" = none → r.doi = .str "") ∧
      (lookupField fields "open_access" = none → r.open_access = .bool false) ∧
      (lookupField fields "host_venue" = none →
        r.journal_name = .str "" ∧ r.volume = .str "" ∧ r.issue = .str "") ∧
      (lookupField fields "cited_by_count" = none → r.cited_by_count = .num 0) ∧
      (lookupField fields "type" = none → r.type = .str "") ∧
      (lookupField fields "abstract_inverted_index" = none → r.abstract = "") := by
  unfold wfWork at h
  simp only [Bool.and_eq_true] at h
  obtain ⟨⟨⟨hid, hauth⟩, hoa⟩, hhv⟩ := h
  obtain ⟨authors, ha, hadef⟩ := getAuthorsE_ok fields hauth
  obtain ⟨jn, vol, iss, hh, hhdef⟩ := hostInfoE_ok fields hhv
  obtain ⟨idv, hi, hidef⟩ := idE_ok fields hid
  obtain ⟨oa, ho, hodef⟩ := openAccessE_ok fields hoa
  refine ⟨⟨idv, pyGet fields "title" (.str ""), authors,
    pyGet fields "publication_year" .null, pyGet fields "publication_date" .null,
    pyGet fields "doi" (.str ""), oa, jn, vol, iss,
    pyGet fields "cited_by_count" (.num 0), pyGet fields "type" (.str ""),
    abstractField fields⟩, ?_, ?_, ?_, ?_, ?_, ?_, ?_, ?_, ?_, ?_, ?_, ?_⟩
  · simp [extract_work_one, ha, hh, hi, ho]
  · exact fun hn => hidef hn
  · exact fun hn => by simp [pyGet_none _ _ _ hn]
  · exact fun hn => hadef hn
  · exact fun hn => by simp [pyGet_none _ _ _ hn]
  · exact fun hn => by simp [pyGet_none _ _ _ hn]
  · exact fun hn => by simp [pyGet_none _ _ _ hn]
  · exact fun hn => hodef hn
  · exact fun hn => hhdef hn
  · exact fun hn => by simp [pyGet_none _ _ _ hn]
  · exact fun hn => by simp [pyGet_none _ _ _ hn]
  · exact fun hn => abstractField_none fields hn

/-- Well-formedness of one institution entry of the verification printout:
an object whose display name, if present, is a string. -/
def wfInstitution (inst : JValue) : Bool :=
  match inst with
  | .obj ifs =>
    match lookupField ifs "display_name" with
    | none => true
    | some (.str _) => true
    | some _ => false
  | _ => false

/-- Well-formedness of one authorship entry for the verification printout:
an object whose institutions, if present, is a list of well-formed
institution entries. -/
def wfAuthorshipInsts (a : JValue) : Bool :=
  match a with
  | .obj afs =>
    match lookupField afs "institutions" with
    | none => true
    | some (.arr xs) => xs.all wfInstitution
    | some _ => false
  | _ => false

/-- The authorships field, if present, is a list of entries the
verification printout can walk. -/
def wfAuthorshipsVerify (fields : List (String × JValue)) : Bool :=
  match lookupField fields "authorships" with
  | none => true
  | some (.arr xs) => xs.all wfAuthorshipInsts
  | some _ => false

/-- Sufficient well-formedness for `process_works` (normalization plus the
first-ten verification printout) not to raise. -/
def wfWorkProcess (fields : List (String × JValue)) : Bool :=
  wfAuthorshipsField fields && wfAuthorshipsVerify fields &&
    wfOptObjField fields "open_access" && wfOptObjField fields "host_venue"

/-- A work value `process_works` can handle: an object with a well-formed
field list. -/
def wfWorkVal (w : JValue) : Bool :=
  match w with
  | .obj fields => wfWorkProcess fields
  | _ => false

theorem mapME_all_ok {α β : Type} (f : α → Except Unit β) :
    ∀ xs : List α, (∀ x ∈ xs, ∃ y, f x = .ok y) →
      ∃ ys, mapME f xs = .ok ys := by
  intro xs
  induction xs with
  | nil => intro _; exact ⟨[], rfl⟩
  | cons x rest ih =>
    intro h
    obtain ⟨y, hy⟩ := h x (by simp)
    obtain ⟨ys, hys⟩ := ih (fun x hx => h x (List.mem_cons_of_mem _ hx))
    exact ⟨y :: ys, by simp [mapME, hy, hys]⟩

theorem verifyInstName_ok (inst : JValue) (h : wfInstitution inst = true) :
    ∃ s, verifyInstName inst = .ok s := by
  cases inst with
  | obj ifs =>
    unfold wfInstitution at h
    unfold verifyInstName
    rw [show dictGetE (JValue.obj ifs) "display_name" (.str "") =
      .ok (pyGet ifs "display_name" (.str "")) from rfl]
    simp only [exceptBind_ok]
    cases h1 : lookupField ifs "display_name" with
    | none => exact ⟨"", by simp [pyGet, h1, asStrE]⟩
    | some v =>
      simp only [h1] at h
      simp only [pyGet, h1]
      cases v <;> simp_all [asStrE]
  | null => simp [wfInstitution] at h
  | bool b => simp [wfInstitution] at h
  | num n => simp [wfInstitution] at h
  | str s => simp [wfInstitution] at h
  | arr xs => simp [wfInstitution] at h

theorem verifyAuthorship_ok (a : JValue) (h : wfAuthorshipInsts a = true) :
    ∃ ns, verifyAuthorship a = .ok ns := by
  cases a with
  | obj afs =>
    unfold wfAuthorshipInsts at h
    unfold verifyAuthorship
    rw [show dictGetE (JValue.obj afs) "institutions" (.arr []) =
      .ok (pyGet afs "institutions" (.arr [])) from rfl]
    simp only [exceptBind_ok]
    cases h1 : lookupField afs "institutions" with
    | none => exact ⟨[], by simp [pyGet, h1, iterElems, mapME]⟩
    | some v =>
      simp only [h1] at h
      simp only [pyGet, h1]
      cases v with
      | arr xs =>
        simp only [iterElems, exceptBind_ok]
        apply mapME_all_ok
        intro x hx
        rw [List.all_eq_true] at h
        exact verifyInstName_ok x (h x hx)
      | null => simp at h
      | bool b => simp at h
      | num n => simp at h
      | str s => simp at h
      | obj fs => simp at h
  | null => simp [wfAuthorshipInsts] at h
  | bool b => simp [wfAuthorshipInsts] at h
  | num n => simp [wfAuthorshipInsts] at h
  | str s => simp [wfAuthorshipInsts] at h
  | arr xs => simp [wfAuthorshipInsts] at h

theorem checkVerify_ok (fields : List (String × JValue))
    (h : wfAuthorshipsVerify fields = true) :
    checkVerify (.obj fields) = .ok () := by
  unfold wfAuthorshipsVerify at h
  unfold checkVerify
  cases h1 : lookupField fields "authorships" with
  | none => simp [pyGet, h1, iterElems, mapME]
  | some v =>
    simp only [h1] at h
    simp only [pyGet, h1]
    cases v with
    | arr xs =>
      simp only [iterElems, exceptBind_ok]
      obtain ⟨ys, hys⟩ := mapME_all_ok verifyAuthorship xs (fun x hx => by
        rw [List.all_eq_true] at h
        exact verifyAuthorship_ok x (h x hx))
      simp [hys]
    | null => simp at h
    | bool b => simp at h
    | num n => simp at h
    | str s => simp at h
    | obj fs => simp at h

theorem process_one_wf_ok (fields : List (String × JValue))
    (h1 : wfAuthorshipsField fields = true)
    (h2 : wfOptObjField fields "open_access" = true)
    (h3 : wfOptObjField fields "host_venue" = true) :
    ∃ r, process_one (.obj fields) = .ok r ∧
      (lookupField fields "authorships" = none → r.authors = "") ∧
      (lookupField fields "open_access" = none → r.open_access = .bool false) ∧
      (lookupField fields "cited_by_count" = none → r.cited_by_count = .num 0) := by
  obtain ⟨authors, ha, hadef⟩ := getAuthorsE_ok fields h1
  obtain ⟨jn, vol, iss, hh, _⟩ := hostInfoE_ok fields h3
  obtain ⟨oa, ho, hodef⟩ := openAccessE_ok fields h2
  refine ⟨⟨pyGet fields "id" (.str ""), pyGet fields "title" (.str ""), authors,
    pyGet fields "publication_year" .null, pyGet fields "publication_date" .null,
    pyGet fields "doi" (.str ""), oa, jn, vol, iss,
    pyGet fields "cited_by_count" (.num 0), pyGet fields "type" (.str ""),
    abstractField fields⟩, ?_, ?_, ?_, ?_⟩
  · simp [process_one, ha, hh, ho]
  · exact fun hn => hadef hn
  · exact fun hn => hodef hn
  · exact fun hn => by simp [pyGet_none _ _ _ hn]

theorem process_works_go_wf_ok :
    ∀ (works : List JValue) (i : Nat),
      (∀ w ∈ works, wfWorkVal w = true) →
      ∃ rows, process_works_go i works = .ok rows := by
  intro works
  induction works with
  | nil => intro i _; exact ⟨[], rfl⟩
  | cons w rest ih =>
    intro i hall
    have hw := hall w (by simp)
    cases w with
    | obj fields =>
      unfold wfWorkVal wfWorkProcess at hw
      simp only [Bool.and_eq_true] at hw
      obtain ⟨⟨⟨hauth, hver⟩, hoa⟩, hhv⟩ := hw
      have hcv : checkVerify (.obj fields) = .ok () := checkVerify_ok fields hver
      obtain ⟨r, hr, _, _, _⟩ := process_one_wf_ok fields hauth hoa hhv
      obtain ⟨rows, hrows⟩ := ih (i + 1)
        (fun x hx => hall x (List.mem_cons_of_mem _ hx))
      refine ⟨r :: rows, ?_⟩
      show ((if i < 10 then checkVerify (.obj fields) else .ok ()) >>= fun _ =>
        process_one (.obj fields) >>= fun r =>
        process_works_go (i + 1) rest >>= fun rs => .ok (r :: rs)) =
          .ok (r :: rows)
      have hcv' : (if i < 10 then checkVerify (.obj fields) else Except.ok ()) =
          .ok () := by
        by_cases hi : i < 10
        · rw [if_pos hi]; exact hcv
        · rw [if_neg hi]
      rw [hcv']
      simp [hr, hrows]
    | null => simp [wfWorkVal] at hw
    | bool b => simp [wfWorkVal] at hw
    | num n => simp [wfWorkVal] at hw
    | str s => simp [wfWorkVal] at hw
    | arr xs => simp [wfWorkVal] at hw


/-- C2 (amended): for every raw Work object whose id (if present) is a
string, whose authorships (if present) is a list of objects each carrying
an author object with a string display name, and whose open_access and
host_venue (if present) are objects, `extract_work_data`'s per-work body
returns a row without raising and maps each absent field to its
type-appropriate default (cited_by_count 0, open_access false, string
fields empty, year and date null); `process_works` additionally requires,
for its first-ten verification printout, that each authorship's
institutions (if present) is a list of objects whose display name (if
present) is a string — under those conditions its per-work body and the
whole loop return without raising. These conditions are sufficient, not
necessary. -/
theorem C2_normalizer_wellformed_no_raise :
    (∀ fields, wfWork fields = true →
      ∃ r, extract_work_one (.obj fields) = .ok r ∧
        (lookupField fields "id" = none → r.id = .str "") ∧
        (lookupField fields "title" = none → r.title = .str "") ∧
        (lookupField fields "authorships" = none → r.authors = "") ∧
        (lookupField fields "publication_year" = none →
          r.publication_year = .null) ∧
        (lookupField fields "publication_date" = none →
          r.publication_date = .null) ∧
        (lookupField fields "doi" = none → r.doi = .str "") ∧
        (lookupField fields "open_access" = none → r.open_access = .bool false) ∧
        (lookupField fields "host_venue" = none →
          r.journal_name = .str "" ∧ r.volume = .str "" ∧ r.issue = .str "") ∧
        (lookupField fields "cited_by_count" = none →
          r.cited_by_count = .num 0) ∧
        (lookupField fields "type" = none → r.type = .str "") ∧
        (lookupField fields "abstract_inverted_index" = none →
          r.abstract = "")) ∧
    (∀ fields, wfWorkProcess fields = true →
      checkVerify (.obj fields) = .ok () ∧
      ∃ r, process_one (.obj fields) = .ok r ∧
        (lookupField fields "authorships" = none → r.authors = "") ∧
        (lookupField fields "open_access" = none → r.open_access = .bool false) ∧
        (lookupField fields "cited_by_count" = none →
          r.cited_by_count = .num 0)) ∧
    (∀ works : List JValue, (∀ w ∈ works, wfWorkVal w = true) →
      ∃ rows, process_works works = .ok rows) := by
  refine ⟨extract_work_one_wf_ok, ?_, ?_⟩
  · intro fields h
    unfold wfWorkProcess at h
    simp only [Bool.and_eq_true] at h
    obtain ⟨⟨⟨hauth, hver⟩, hoa⟩, hhv⟩ := h
    exact ⟨checkVerify_ok fields hver, process_one_wf_ok fields hauth hoa hhv⟩
  · intro works hall
    exact process_works_go_wf_ok works 0 hall

/-- Witness for C2 (amended) at the concrete work `{}`: a row with the
headline defaults is returned by the extract normalizer, and the process
normalizer handles the one-element list without raising. -/
theorem C2_normalizer_wellformed_no_raise_witness :
    (∃ r, extract_work_one (.obj []) = .ok r ∧ r.cited_by_count = .num 0 ∧
      r.open_access = .bool false ∧ r.authors = "") ∧
    checkVerify (.obj []) = .ok () ∧
    (∃ rows, process_works [JValue.obj []] = .ok rows) := by
  obtain ⟨r, hr, _, _, h3, _, _, _, h7, _, h9, _, _⟩ :=
    C2_normalizer_wellformed_no_raise.1 [] (by decide)
  refine ⟨⟨r, hr, h9 rfl, h7 rfl, h3 rfl⟩, ?_, ?_⟩
  · exact (C2_normalizer_wellformed_no_raise.2.1 [] (by decide)).1
  · exact C2_normalizer_wellformed_no_raise.2.2 [JValue.obj []] (fun w hw => by
      rw [List.mem_singleton] at hw
      subst hw
      decide)

/-! ### C3: identifier prefix stripping -/

theorem replaceAllAux_skip (p0 : Char) (ps : List Char) :
    ∀ (pre t : List Char),
      replaceAllAux p0 ps pre.length (pre ++ t) = replaceAllAux p0 ps 0 t := by
  intro pre
  induction pre with
  | nil => intro t; rfl
  | cons c rest ih =>
    intro t
    show replaceAllAux p0 ps rest.length (rest ++ t) = replaceAllAux p0 ps 0 t
    exact ih t

theorem replaceAllAux_no_occ (p0 : Char) (ps : List Char) :
    ∀ s : List Char, containsPat p0 ps s = false →
      replaceAllAux p0 ps 0 s = s := by
  intro s
  induction s with
  | nil => intro _; rfl
  | cons c rest ih =>
    intro h
    rw [show containsPat p0 ps (c :: rest) =
      ((c = p0 && ps.isPrefixOf rest) || containsPat p0 ps rest) from rfl,
      Bool.or_eq_false_iff] at h
    rw [show replaceAllAux p0 ps 0 (c :: rest) =
      (if c = p0 && ps.isPrefixOf rest then replaceAllAux p0 ps ps.length rest
       else c :: replaceAllAux p0 ps 0 rest) from rfl]
    rw [h.1]
    simp [ih h.2]

theorem replaceAll_strip (p0 : Char) (ps : List Char) (t : List Char)
    (h : containsPat p0 ps t = false) :
    replaceAll p0 ps (p0 :: (ps ++ t)) = t := by
  unfold replaceAll
  rw [show replaceAllAux p0 ps 0 (p0 :: (ps ++ t)) =
    (if p0 = p0 && ps.isPrefixOf (ps ++ t) then
      replaceAllAux p0 ps ps.length (ps ++ t)
     else p0 :: replaceAllAux p0 ps 0 (ps ++ t)) from rfl]
  rw [if_pos]
  · rw [replaceAllAux_skip p0 ps ps t]
    exact replaceAllAux_no_occ p0 ps t h
  · simp [ List.isPrefixOf_iff_prefix, List.prefix_append]

theorem pyReplaceDel_openalex (s : String)
    (h : containsPat 'h' "ttps://openalex.org/".data s.data = false) :
    pyReplaceDel "https://openalex.org/" ("https://openalex.org/" ++ s) = s := by
  show String.mk (replaceAll 'h' "ttps://openalex.org/".data
    ("https://openalex.org/" ++ s).data) = s
  rw [show ("https://openalex.org/" ++ s).data
      = 'h' :: ("ttps://openalex.org/".data ++ s.data) from by
    rw [String.data_append]
    rfl]
  rw [replaceAll_strip 'h' "ttps://openalex.org/".data s.data h]

/-- C3 counterexample: the claim says any URI prefix is stripped, and in
particular id `"https://x.org/W1"` normalizes to `"W1"`; on the code the
output id is the unchanged `"https://x.org/W1"`, not `"W1"`. -/
theorem C3_prefix_counterexample :
    (extract_work_one (.obj [("id", .str "https://x.org/W1")])).map Row.id =
      .ok (.str "https://x.org/W1") ∧
    ¬ (extract_work_one (.obj [("id", .str "https://x.org/W1")])).map Row.id =
      .ok (.str "W1") := by
  refine ⟨rfl, fun hcon => ?_⟩
  have h := hcon
  rw [show (extract_work_one
      (.obj [("id", .str "https://x.org/W1")])).map Row.id =
    .ok (.str "https://x.org/W1") from rfl] at h
  injection h with h1
  injection h1 with h2
  exact absurd h2 (by decide)

/-- C3 (amended): `extract_work_data` strips exactly the known URI prefix
`https://openalex.org/` (each occurrence of it) from the id, so an id
carrying that prefix followed by a prefix-free remainder normalizes to the
remainder; `process_works` in `fetch_aphrc.py` leaves the id unchanged. -/
theorem C3_known_prefix_stripped (s : String)
    (h : containsPat 'h' "ttps://openalex.org/".data s.data = false) :
    (extract_work_one
        (.obj [("id", .str ("https://openalex.org/" ++ s))])).map Row.id =
      .ok (.str s) ∧
    (process_one
        (.obj [("id", .str ("https://openalex.org/" ++ s))])).map Row.id =
      .ok (.str ("https://openalex.org/" ++ s)) := by
  constructor
  · show Except.ok (JValue.str (pyReplaceDel "https://openalex.org/"
      ("https://openalex.org/" ++ s))) = .ok (.str s)
    rw [pyReplaceDel_openalex s h]
  · rfl

/-- Witness for C3 (amended) at the concrete id
`"https://openalex.org/W1"`, which normalizes to `"W1"`. -/
theorem C3_known_prefix_stripped_witness :
    (extract_work_one
        (.obj [("id", .str ("https://openalex.org/" ++ "W1"))])).map Row.id =
      .ok (.str "W1") :=
  (C3_known_prefix_stripped "W1" (by decide)).1

/-! ### C10: the normalizer loops produce one row per work, in order -/

theorem mapME_ok {α β : Type} (f : α → Except Unit β) :
    ∀ (xs : List α) (ys : List β), mapME f xs = .ok ys →
      ys.length = xs.length ∧
      ∀ i (hx : i < xs.length) (hy : i < ys.length),
        f (xs.get ⟨i, hx⟩) = .ok (ys.get ⟨i, hy⟩) := by
  intro xs
  induction xs with
  | nil =>
    intro ys h
    injection h with h1
    subst h1
    exact ⟨rfl, fun i hx _ => absurd hx (by simp)⟩
  | cons x rest ih =>
    intro ys h
    cases hf : f x with
    | error e => rw [show mapME f (x :: rest) =
        (f x >>= fun y => mapME f rest >>= fun ys => .ok (y :: ys)) from rfl,
        hf] at h; cases e; simp at h
    | ok y =>
      cases hm : mapME f rest with
      | error e => rw [show mapME f (x :: rest) =
          (f x >>= fun y => mapME f rest >>= fun ys => .ok (y :: ys)) from rfl,
          hf, hm] at h; cases e; simp at h
      | ok ys' =>
        rw [show mapME f (x :: rest) =
          (f x >>= fun y => mapME f rest >>= fun ys => .ok (y :: ys)) from rfl,
          hf, hm] at h
        simp only [exceptBind_ok] at h
        injection h with h1
        subst h1
        obtain ⟨hlen, hidx⟩ := ih ys' hm
        refine ⟨by simp [hlen], fun i hx hy => ?_⟩
        cases i with
        | zero => simpa using hf
        | succ j =>
          simp only [List.get_cons_succ]
          exact hidx j (by simpa using hx) (by simpa using hy)

theorem process_works_go_ok :
    ∀ (works : List JValue) (i : Nat) (rows : List Row),
      process_works_go i works = .ok rows →
      rows.length = works.length ∧
      ∀ j (hw : j < works.length) (hr : j < rows.length),
        process_one (works.get ⟨j, hw⟩) = .ok (rows.get ⟨j, hr⟩) := by
  intro works
  induction works with
  | nil =>
    intro i rows h
    injection h with h1
    subst h1
    exact ⟨rfl, fun j hw _ => absurd hw (by simp)⟩
  | cons w rest ih =>
    intro i rows h
    rw [show process_works_go i (w :: rest) =
      ((if i < 10 then checkVerify w else .ok ()) >>= fun _ =>
        process_one w >>= fun r =>
        process_works_go (i + 1) rest >>= fun rs => .ok (r :: rs)) from rfl] at h
    cases hc : (if i < 10 then checkVerify w else Except.ok ()) with
    | error e => rw [hc] at h; cases e; simp at h
    | ok u =>
      rw [hc] at h
      simp only [exceptBind_ok] at h
      cases hp : process_one w with
      | error e => rw [hp] at h; cases e; simp at h
      | ok r =>
        rw [hp] at h
        simp only [exceptBind_ok] at h
        cases hg : process_works_go (i + 1) rest with
        | error e => rw [hg] at h; cases e; simp at h
        | ok rs =>
          rw [hg] at h
          simp only [exceptBind_ok] at h
          injection h with h1
          subst h1
          obtain ⟨hlen, hidx⟩ := ih (i + 1) rs hg
          refine ⟨by simp [hlen], fun j hw hr => ?_⟩
          cases j with
          | zero => simpa using hp
          | succ j' =>
            simp only [List.get_cons_succ]
            exact hidx j' (by simpa using hw) (by simpa using hr)

/-- C10: whenever either normalizer loop returns, it returns exactly one
row per input work, in input order — never dropping, merging or reordering
records. -/
theorem C10_one_row_per_work_in_order :
    (∀ (works : List JValue) (rows : List Row),
      extract_work_data works = .ok rows →
      rows.length = works.length ∧
      ∀ i (hw : i < works.length) (hr : i < rows.length),
        extract_work_one (works.get ⟨i, hw⟩) = .ok (rows.get ⟨i, hr⟩)) ∧
    (∀ (works : List JValue) (rows : List Row),
      process_works works = .ok rows →
      rows.length = works.length ∧
      ∀ i (hw : i < works.length) (hr : i < rows.length),
        process_one (works.get ⟨i, hw⟩) = .ok (rows.get ⟨i, hr⟩)) :=
  ⟨fun works rows h => mapME_ok extract_work_one works rows h,
   fun works rows h => process_works_go_ok works 0 rows h⟩

/-- The row both normalizers produce for the empty work `{}`. -/
def emptyWorkRow : Row :=
  ⟨.str "", .str "", "", .null, .null, .str "", .bool false, .str "", .str "",
    .str "", .num 0, .str "", ""⟩

/-- Witness for C10 on the one-element work list `[{}]`. -/
theorem C10_one_row_per_work_in_order_witness :
    ([emptyWorkRow].length = [JValue.obj []].length) ∧
    ([emptyWorkRow].length = [JValue.obj []].length) :=
  ⟨(C10_one_row_per_work_in_order.1 [.obj []] [emptyWorkRow] rfl).1,
   (C10_one_row_per_work_in_order.2 [.obj []] [emptyWorkRow] rfl).1⟩

/-! ### Loader (`insert_to_postgres`) and Mirror/Export.

The loader and export operate on the destination table at the relational
level: a row type with a TEXT primary key extracted by `key`; the table is
the list of stored rows in insertion order. -/

section Loader

variable {ρ : Type}

/-- Does the table hold a row with primary key `k`? (`ρ` is the row tuple,
`key` extracts the TEXT id column.) -/
def hasKeyRow (key : ρ → String) (t : List ρ) (k : String) : Bool :=
  t.any (fun r => key r == k)

/-- Does a key list repeat an entry? -/
def dupKeys : List String → Bool
  | [] => false
  | k :: rest => rest.any (fun k' => k' == k) || dupKeys rest

/-- The bulk `COPY` violates the id primary-key constraint exactly when an
incoming id already exists in the table or the batch itself repeats an id. -/
def copyConflict (key : ρ → String) (t : List ρ) (data : List ρ) : Bool :=
  data.any (fun r => hasKeyRow key t (key r)) || dupKeys (data.map key)

/-- One `INSERT ... ON CONFLICT (id) DO NOTHING`: an environmental failure
(`rowFails`) rolls this row back and skips it; a key conflict inserts
nothing; otherwise the row is appended. -/
def insOrSkip (key : ρ → String) (rowFails : List ρ → ρ → Bool)
    (t : List ρ) (r : ρ) : List ρ :=
  if rowFails t r then t
  else if hasKeyRow key t (key r) then t
  else t ++ [r]

/-- The row-by-row fallback loop: every row is attempted, each in its own
transaction. -/
def rowByRow (key : ρ → String) (rowFails : List ρ → ρ → Bool)
    (data : List ρ) (t : List ρ) : List ρ :=
  data.foldl (insOrSkip key rowFails) t

/-- The function `insert_to_postgres` (`extract.py` lines 255-309,
`fetch_aphrc.py` lines 281-331): empty input returns at once; the bulk COPY
path commits all rows in one transaction, but any key conflict (or
environmental failure `copyFails`) raises, rolls the transaction back and
falls back to the row-by-row loop on the unchanged table. -/
def insert_to_postgres (key : ρ → String)
    (copyFails : List ρ → List ρ → Bool) (rowFails : List ρ → ρ → Bool)
    (data : List ρ) (t : List ρ) : List ρ :=
  if data.isEmpty then t
  else if copyConflict key t data || copyFails t data then
    rowByRow key rowFails data t
  else t ++ data

/-- The benign row environment: inserts fail only through key conflicts. -/
def benignRow : List ρ → ρ → Bool := fun _ _ => false

theorem hasKeyRow_append (key : ρ → String) (t u : List ρ) (k : String) :
    hasKeyRow key (t ++ u) k = (hasKeyRow key t k || hasKeyRow key u k) := by
  simp [hasKeyRow, List.any_append]

theorem hasKeyRow_insOrSkip (key : ρ → String) (rf : List ρ → ρ → Bool)
    (t : List ρ) (r : ρ) (k : String) (h : hasKeyRow key t k = true) :
    hasKeyRow key (insOrSkip key rf t r) k = true := by
  unfold insOrSkip
  split
  · exact h
  · split
    · exact h
    · rw [hasKeyRow_append, h]
      rfl

theorem hasKeyRow_rowByRow (key : ρ → String) (rf : List ρ → ρ → Bool) :
    ∀ (data : List ρ) (t : List ρ) (k : String),
      hasKeyRow key t k = true →
      hasKeyRow key (rowByRow key rf data t) k = true := by
  intro data
  induction data with
  | nil => intro t k h; exact h
  | cons r rest ih =>
    intro t k h
    exact ih (insOrSkip key rf t r) k (hasKeyRow_insOrSkip key rf t r k h)

theorem hasKeyRow_self (key : ρ → String) (t : List ρ) (r : ρ) (h : r ∈ t) :
    hasKeyRow key t (key r) = true := by
  simp only [hasKeyRow, List.any_eq_true]
  exact ⟨r, h, by simp⟩

/-- After a benign row-by-row pass every incoming key is present. -/
theorem rowByRow_mem_key (key : ρ → String) :
    ∀ (data : List ρ) (t : List ρ) (r : ρ), r ∈ data →
      hasKeyRow key (rowByRow key (benignRow) data t) (key r) = true := by
  intro data
  induction data with
  | nil => intro t r h; cases h
  | cons d rest ih =>
    intro t r h
    rcases List.mem_cons.mp h with h | h
    · subst h
      show hasKeyRow key
        (rowByRow key benignRow rest (insOrSkip key benignRow t r)) (key r) = true
      apply hasKeyRow_rowByRow
      cases hk : hasKeyRow key t (key r) with
      | true =>
        have he : insOrSkip key benignRow t r = t := by
          unfold insOrSkip benignRow
          rw [if_neg (by simp), if_pos hk]
        rw [he, hk]
      | false =>
        have he : insOrSkip key benignRow t r = t ++ [r] := by
          unfold insOrSkip benignRow
          rw [if_neg (by simp), if_neg (by simp [hk])]
        rw [he, hasKeyRow_append, hk]
        simp [hasKeyRow]
    · exact ih (insOrSkip key benignRow t d) r h

/-- A benign row-by-row pass whose keys are all present is a no-op. -/
theorem rowByRow_all_present (key : ρ → String) :
    ∀ (data : List ρ) (t : List ρ),
      (∀ r ∈ data, hasKeyRow key t (key r) = true) →
      rowByRow key (benignRow) data t = t := by
  intro data
  induction data with
  | nil => intro t _; rfl
  | cons d rest ih =>
    intro t h
    show rowByRow key benignRow rest (insOrSkip key benignRow t d) = t
    have hd : insOrSkip key benignRow t d = t := by
      unfold insOrSkip benignRow
      rw [if_neg (by simp), if_pos (h d (by simp))]
    rw [hd]
    exact ih t (fun r hr => h r (List.mem_cons_of_mem _ hr))

/-- Every incoming key is present after a benign load, whichever path ran. -/
theorem insert_mem_key (key : ρ → String)
    (cf : List ρ → List ρ → Bool) (data : List ρ) (t : List ρ) (r : ρ)
    (h : r ∈ data) :
    hasKeyRow key (insert_to_postgres key cf benignRow data t) (key r) = true := by
  unfold insert_to_postgres
  rw [if_neg (by intro he; rw [List.isEmpty_iff] at he; subst he; cases h)]
  split
  · exact rowByRow_mem_key key data t r h
  · rw [hasKeyRow_append]
    rw [hasKeyRow_self key data r h]
    simp

/-- C4: the Loader is idempotent in the benign environment — re-running it
on the same row list leaves the table exactly as after the first run (the
second run's bulk path conflicts, rolls back, and the row-by-row fallback
skips every already-present id without error). -/
theorem C4_loader_idempotent (key : ρ → String)
    (cf : List ρ → List ρ → Bool) (data : List ρ) (t : List ρ) :
    insert_to_postgres key cf benignRow data
        (insert_to_postgres key cf benignRow data t) =
      insert_to_postgres key cf benignRow data t := by
  cases data with
  | nil => rfl
  | cons d rest =>
    set t1 := insert_to_postgres key cf benignRow (d :: rest) t with ht1
    have hall : ∀ r ∈ d :: rest, hasKeyRow key t1 (key r) = true :=
      fun r hr => insert_mem_key key cf (d :: rest) t r hr
    show insert_to_postgres key cf benignRow (d :: rest) t1 = t1
    unfold insert_to_postgres
    rw [if_neg (by simp)]
    rw [if_pos]
    · exact rowByRow_all_present key (d :: rest) t1 hall
    · have hd : hasKeyRow key t1 (key d) = true := hall d (by simp)
      simp [copyConflict, hd]

/-- C7: whenever the bulk COPY path fails — by key conflict or any
environmental failure — the bulk transaction is rolled back and the loader
falls back to the row-by-row insert-or-skip over the whole list starting
from the unchanged table; and a row whose individual insert fails is
skipped, leaving the processing of all later rows exactly as if the bad
row were absent. -/
theorem C7_bulk_failure_fallback {σ : Type} :
    (∀ (key : σ → String) (cf : List σ → List σ → Bool)
        (rf : List σ → σ → Bool) (data : List σ) (t : List σ),
      data ≠ [] → (copyConflict key t data || cf t data) = true →
      insert_to_postgres key cf rf data t = rowByRow key rf data t) ∧
    (∀ (key : σ → String) (rf : List σ → σ → Bool) (t : List σ) (bad : σ)
        (suf : List σ),
      rf t bad = true →
      rowByRow key rf (bad :: suf) t = rowByRow key rf suf t) := by
  constructor
  · intro key cf rf data t hne hcond
    unfold insert_to_postgres
    rw [if_neg (by simp [List.isEmpty_iff, hne]), if_pos hcond]
  · intro key rf t bad suf hbad
    have he : insOrSkip key rf t bad = t := by
      unfold insOrSkip
      rw [if_pos hbad]
    show rowByRow key rf suf (insOrSkip key rf t bad) = rowByRow key rf suf t
    rw [he]

/-- Witness for C7: with an environment whose bulk path always fails, a
one-row load on an empty table equals the row-by-row pass, and a failing
first row does not affect the processing of the second. -/
theorem C7_bulk_failure_fallback_witness :
    insert_to_postgres (fun s : String => s) (fun _ _ => true)
        (fun _ _ => false) ["a"] [] =
      rowByRow (fun s : String => s) (fun _ _ => false) ["a"] [] ∧
    rowByRow (fun s : String => s) (fun _ _ => true) ["a", "b"] [] =
      rowByRow (fun s : String => s) (fun _ _ => true) ["b"] [] :=
  ⟨C7_bulk_failure_fallback.1 (fun s => s) (fun _ _ => true) (fun _ _ => false)
      ["a"] [] (by decide) rfl,
   C7_bulk_failure_fallback.2 (fun s => s) (fun _ _ => true) [] "a" ["b"] rfl⟩

/-! ### Mirror/Export (`export_to_remote.py`) -/

/-- The export loop with `n` batches left: the next batch is
`rows[i : i + 100]`, upserted row-by-row (`ON CONFLICT (id) DO NOTHING`)
and committed as one unit. -/
def export_loop (key : ρ → String) (rows : List ρ) :
    Nat → Nat → List ρ → List ρ
  | 0, _, tgt => tgt
  | n + 1, i, tgt =>
    export_loop key rows n (i + 100)
      (rowByRow key benignRow ((rows.drop i).take 100) tgt)

/-- The function `export_data_to_remote` (`export_to_remote.py` lines
88-105): every source row, in fixed batches of 100 (`range(0, len, 100)`),
upserted into the target with already-present ids skipped. -/
def export_data_to_remote (key : ρ → String) (rows : List ρ)
    (tgt : List ρ) : List ρ :=
  export_loop key rows ((rows.length + 99) / 100) 0 tgt

theorem rowByRow_append (key : ρ → String) (rf : List ρ → ρ → Bool)
    (l₁ l₂ : List ρ) (t : List ρ) :
    rowByRow key rf (l₁ ++ l₂) t = rowByRow key rf l₂ (rowByRow key rf l₁ t) := by
  unfold rowByRow
  rw [List.foldl_append]

theorem export_loop_eq (key : ρ → String) (rows : List ρ) :
    ∀ (n i : Nat) (tgt : List ρ), rows.length ≤ i + n * 100 →
      export_loop key rows n i tgt =
        rowByRow key benignRow (rows.drop i) tgt := by
  intro n
  induction n with
  | zero =>
    intro i tgt h
    have hnil : rows.drop i = [] := List.drop_eq_nil_of_le (by omega)
    show tgt = rowByRow key benignRow (rows.drop i) tgt
    rw [hnil]
    rfl
  | succ n ih =>
    intro i tgt h
    show export_loop key rows n (i + 100)
        (rowByRow key benignRow ((rows.drop i).take 100) tgt) =
      rowByRow key benignRow (rows.drop i) tgt
    rw [ih (i + 100) _ (by omega)]
    have h1 : rows.drop (i + 100) = List.drop 100 (rows.drop i) := by
      rw [List.drop_drop]
    have hsplit : rows.drop i = (rows.drop i).take 100 ++ rows.drop (i + 100) := by
      rw [h1, List.take_append_drop]
    conv_rhs => rw [hsplit]
    rw [rowByRow_append]

theorem rowByRow_length_new (key : ρ → String) :
    ∀ (rows t : List ρ), dupKeys (rows.map key) = false →
      (∀ r ∈ rows, hasKeyRow key t (key r) = false) →
      (rowByRow key benignRow rows t).length = t.length + rows.length := by
  intro rows
  induction rows with
  | nil => intro t _ _; rfl
  | cons d rest ih =>
    intro t hdup habs
    show (rowByRow key benignRow rest (insOrSkip key benignRow t d)).length = _
    have hd : insOrSkip key benignRow t d = t ++ [d] := by
      unfold insOrSkip benignRow
      rw [if_neg (by simp), if_neg (by simp [habs d (by simp)])]
    rw [show dupKeys ((d :: rest).map key) =
      (((rest.map key).any (fun k' => k' == key d)) || dupKeys (rest.map key))
      from rfl, Bool.or_eq_false_iff] at hdup
    have habs' : ∀ r ∈ rest, hasKeyRow key (t ++ [d]) (key r) = false := by
      intro r hr
      rw [hasKeyRow_append, habs r (List.mem_cons_of_mem _ hr)]
      simp only [Bool.false_or]
      have hany := hdup.1
      rw [List.any_eq_false] at hany
      have hne := hany (key r) (List.mem_map_of_mem key hr)
      simp only [beq_iff_eq] at hne
      have hne' : ¬ (key d = key r) := fun hc => hne hc.symm
      simp [hasKeyRow, hne']
    rw [hd, ih (t ++ [d]) hdup.2 habs']
    simp only [List.length_append, List.length_cons, List.length_nil]
    omega

/-- C8: exporting a source table whose ids are unique (it has a primary
key) into an empty target yields exactly as many target rows as source
rows, and running the export a second time leaves the target unchanged —
no duplicates and no error. -/
theorem C8_export_idempotent {σ : Type} (key : σ → String) (rows : List σ)
    (hdup : dupKeys (rows.map key) = false) :
    (export_data_to_remote key rows []).length = rows.length ∧
    export_data_to_remote key rows (export_data_to_remote key rows []) =
      export_data_to_remote key rows [] := by
  have hexp : ∀ tgt : List σ, export_data_to_remote key rows tgt =
      rowByRow key benignRow rows tgt := by
    intro tgt
    unfold export_data_to_remote
    rw [export_loop_eq key rows _ 0 tgt (by omega), List.drop_zero]
  constructor
  · rw [hexp []]
    rw [rowByRow_length_new key rows [] hdup (fun r _ => rfl)]
    simp
  · simp only [hexp]
    apply rowByRow_all_present
    intro r hr
    exact rowByRow_mem_key key rows [] r hr

/-- Witness for C8 on a concrete two-row source and empty target. -/
theorem C8_export_idempotent_witness :
    (export_data_to_remote (fun s : String => s) ["a", "b"] []).length =
      (["a", "b"] : List String).length ∧
    export_data_to_remote (fun s : String => s) ["a", "b"]
        (export_data_to_remote (fun s : String => s) ["a", "b"] []) =
      export_data_to_remote (fun s : String => s) ["a", "b"] [] :=
  C8_export_idempotent (fun s => s) ["a", "b"] (by decide)

end Loader

/-! ### Work Collector -/

/-- One API response as the scripts consume it: HTTP status plus the parsed
`results` list and the `meta` fields used (`count`, `page`, `per_page`). -/
structure ApiResp where
  status : Nat
  results : List JValue
  metaCount : Nat
  metaPage : Nat
  metaPerPage : Nat

/-- Pagination loop of `fallback_to_api` (`extract.py` lines 311-350): page
size fixed at 200; a non-200 response breaks out returning the accumulated
works; otherwise the page's results are appended and the loop stops when the
page was short or the reported page times 200 reaches the reported count. -/
def fallback_to_api (api : Nat → ApiResp) : Nat → Nat → List JValue → List JValue
  | 0, _, acc => acc
  | fuel + 1, page, acc =>
    let r := api page
    if r.status != 200 then acc
    else
      let acc' := acc ++ r.results
      if r.results.length < 200 || r.metaPage * 200 ≥ r.metaCount then acc'
      else fallback_to_api api fuel (page + 1) acc'

/-- The loop's exit condition at one response: non-200, short page, or the
reported page number times the page size covering the reported total. -/
def apiHalts (r : ApiResp) : Bool :=
  r.status != 200 || decide (r.results.length < 200) ||
    decide (r.metaPage * 200 ≥ r.metaCount)

/-- C9: the API strategy starts at page 1 with page size 200 and accumulates
each page's results; it continues past a page exactly when none of the exit
conditions hold there, stops at the first page satisfying one, and a non-200
status at that page aborts without contributing results (and without
raising — the function is total). -/
theorem C9_api_pagination (api : Nat → ApiResp) :
    ∀ (n start : Nat) (acc : List JValue) (fuel : Nat),
      (∀ j, j < n → apiHalts (api (start + j)) = false) →
      apiHalts (api (start + n)) = true →
      n + 1 ≤ fuel →
      fallback_to_api api fuel start acc =
        acc ++ (((List.range n).map (fun j => (api (start + j)).results)).flatten)
          ++ (if (api (start + n)).status = 200 then (api (start + n)).results
              else []) := by
  intro n
  induction n with
  | zero =>
    intro start acc fuel hrun hstop hfuel
    cases fuel with
    | zero => omega
    | succ f =>
      show (if (api start).status != 200 then acc
        else
          let acc' := acc ++ (api start).results
          if (api start).results.length < 200 ||
              (api start).metaPage * 200 ≥ (api start).metaCount then acc'
          else fallback_to_api api f (start + 1) acc') = _
      rw [show start + 0 = start from rfl] at hstop ⊢
      by_cases hs : (api start).status = 200
      · rw [if_neg (by simp [hs]), if_pos, if_pos hs]
        · simp
        · unfold apiHalts at hstop
          simp only [hs] at hstop
          simpa using hstop
      · rw [if_pos (by simpa using hs), if_neg hs]
        simp
  | succ n ih =>
    intro start acc fuel hrun hstop hfuel
    cases fuel with
    | zero => omega
    | succ f =>
      have h0 : apiHalts (api start) = false := by
        have := hrun 0 (by omega)
        simpa using this
      unfold apiHalts at h0
      simp only [Bool.or_eq_false_iff, decide_eq_false_iff_not] at h0
      obtain ⟨⟨hs200, hlen⟩, hmeta⟩ := h0
      show (if (api start).status != 200 then acc
        else
          let acc' := acc ++ (api start).results
          if (api start).results.length < 200 ||
              (api start).metaPage * 200 ≥ (api start).metaCount then acc'
          else fallback_to_api api f (start + 1) acc') = _
      rw [if_neg (by simpa using hs200)]
      rw [if_neg (by simp [hlen, hmeta])]
      rw [ih (start + 1) (acc ++ (api start).results) f
        (fun j hj => by
          have := hrun (j + 1) (by omega)
          rw [show start + (j + 1) = start + 1 + j from by omega] at this
          exact this)
        (by rw [show start + 1 + n = start + (n + 1) from by omega]; exact hstop)
        (by omega)]
      rw [show start + 1 + n = start + (n + 1) from by omega]
      have hjoin : ((List.range (n + 1)).map
          (fun j => (api (start + j)).results)).flatten =
          (api start).results ++
            ((List.range n).map (fun j => (api (start + 1 + j)).results)).flatten := by
        rw [List.range_succ_eq_map]
        simp only [List.map_cons, List.map_map, List.flatten_cons, Nat.add_zero]
        congr 1
        congr 1
        apply List.map_congr_left
        intro j _
        simp only [Function.comp]
        congr 2
        omega
      rw [hjoin]
      simp only [List.append_assoc]

/-- A one-page API environment: every page answers 200 with a single
result and count 1. -/
def apiOneShort : Nat → ApiResp := fun p => ⟨200, [.null], 1, p, 200⟩

/-- Witness for C9: in the one-page environment the loop stops at page 1
and returns exactly that page's results. -/
theorem C9_api_pagination_witness :
    fallback_to_api apiOneShort 1 1 [] = [JValue.null] := by
  have h := C9_api_pagination apiOneShort 0 1 [] 1
    (fun j hj => absurd hj (Nat.not_lt_zero j)) (by decide) (by decide)
  simpa using h

/-- Inner pagination of `fetch_all_works` (`fetch_aphrc.py` lines 96-118
and the duplicated lines 153-175): `tc` is the total count captured by the
method's probe request. -/
def fetchLoop (api : Nat → Nat → Nat → ApiResp) (m tc : Nat) :
    Nat → Nat → List JValue → List JValue
  | 0, _, acc => acc
  | fuel + 1, page, acc =>
    let r := api m page 200
    if r.status != 200 then acc
    else
      let acc' := acc ++ r.results
      if r.results.length < 200 || r.metaPage * r.metaPerPage ≥ tc then acc'
      else fetchLoop api m tc fuel (page + 1) acc'

/-- One pass over the three search methods of `fetch_all_works`: probe with
per-page 5, and on an acceptable count (strict pass: `0 < count < 10000`,
relaxed pass: `0 < count`) fetch all pages of that method and stop. -/
def tryMethods (api : Nat → Nat → Nat → ApiResp) (strict : Bool)
    (fuel : Nat) : List Nat → List JValue
  | [] => []
  | m :: rest =>
    let probe := api m 1 5
    if probe.status != 200 then tryMethods api strict fuel rest
    else if (if strict then
        decide (0 < probe.metaCount) && decide (probe.metaCount < 10000)
      else decide (0 < probe.metaCount)) then
      fetchLoop api m probe.metaCount fuel 1 []
    else tryMethods api strict fuel rest

/-- The function `fetch_all_works` (`fetch_aphrc.py` lines 52-186): the
method loop appears twice, verbatim except for the upper count bound, and
both passes append to the same accumulator. -/
def fetch_all_works (api : Nat → Nat → Nat → ApiResp) (fuel : Nat) :
    List JValue :=
  tryMethods api true fuel [0, 1, 2] ++ tryMethods api false fuel [0, 1, 2]

/-- A deterministic API environment: method 1 (index 0) always answers 200
with the single work `"W1"` and count 1; the other methods answer 200 with
no results and count 0. -/
def apiDup : Nat → Nat → Nat → ApiResp :=
  fun m page perPage =>
    if m = 0 then ⟨200, [.str "W1"], 1, page, perPage⟩
    else ⟨200, [], 0, page, perPage⟩

/-- C5 evaluation: the collector's own control flow (the duplicated method
loop) returns the successful strategy's single fetched record twice. -/
theorem C5_collector_duplicates :
    fetch_all_works apiDup 1 = [.str "W1", .str "W1"] ∧
    (apiDup 0 1 200).results = [.str "W1"] :=
  ⟨rfl, rfl⟩

/-- Zero-padded two-digit rendering (Python `f"{i:02d}"` for `i < 100`). -/
def pad2 (n : Nat) : String := if n < 10 then "0" ++ toString n else toString n

/-- One synthetic record of `generate_sample_data`
(`extract.py` lines 396-424). -/
def sampleWork (i : Nat) : JValue :=
  .obj [
    ("id", .str ("https://openalex.org/W27418098" ++ pad2 i)),
    ("title", .str ("Sample APHRC publication " ++ toString (i + 1))),
    ("authorships", .arr [
      .obj [("author", .obj [("display_name", .str "John Doe")])],
      .obj [("author", .obj [("display_name", .str "Jane Smith")])]]),
    ("publication_year", .num ((2022 + i % 3 : Nat) : Int)),
    ("publication_date", .str ("202" ++ toString (2 + i % 3) ++ "-" ++
      pad2 (i % 12 + 1) ++ "-15")),
    ("doi", .str ("10.1234/aphrc." ++ toString (5678 + i))),
    ("open_access", .obj [("is_oa", .bool (i % 2 == 0))]),
    ("host_venue", .obj [
      ("display_name", .str ("Journal of African Health Research " ++
        toString (i % 5 + 1))),
      ("volume", .str (toString (10 + i % 5))),
      ("issue", .str (toString (1 + i % 4)))]),
    ("cited_by_count", .num ((i * 3 : Nat) : Int)),
    ("type", .str "journal-article"),
    ("abstract_inverted_index", .obj [])]

/-- The function `generate_sample_data`: ten deterministic sample works. -/
def generate_sample_data : List JValue := (List.range 10).map sampleWork

/-- The strategy selection of `extract.py`'s `main` (lines 363-379): use the
API result if it has at least 10 works, otherwise the snapshot result; if
the chosen list still has fewer than 5 works, use the synthetic samples. -/
def selectWorks (api_works snapshot_works : List JValue) : List JValue :=
  let works := if api_works.length < 10 then snapshot_works else api_works
  if works.length < 5 then generate_sample_data else works

/-- C6: when the API strategy yields fewer than the threshold of 10 works
the snapshot strategy's result is used in its place, and when that too has
fewer than 5 works the pipeline produces the deterministic synthetic
fallback of exactly 10 sample records. -/
theorem C6_selection_policy :
    (∀ apiW snapW : List JValue, apiW.length < 10 →
      selectWorks apiW snapW =
        (if snapW.length < 5 then generate_sample_data else snapW)) ∧
    (∀ apiW snapW : List JValue, apiW.length < 10 → snapW.length < 5 →
      selectWorks apiW snapW = generate_sample_data) ∧
    generate_sample_data.length = 10 := by
  refine ⟨?_, ?_, by simp [generate_sample_data]⟩
  · intro a s h
    simp [selectWorks, h]
  · intro a s h1 h2
    simp [selectWorks, h1, h2]

/-- Witness for C6 with both strategies empty: the synthetic fallback is
selected. -/
theorem C6_selection_policy_witness :
    selectWorks [] [] = generate_sample_data :=
  C6_selection_policy.2.1 [] [] (by decide) (by decide)


end Aphrc
